import Mathlib

/-!
# Verification of the PlayPackFactory allocation engine

Shallow embedding of the quota-constrained allocation engine of
`PlayPackFactory/pack.py` (`create_sample_pack`, `collect_wav_files`,
`convert_audio`) and proofs about the spec's claims.

File references are abstracted to a type `α` with decidable equality;
python strings are `List Char` where substring matching matters, `String`
where they are only dictionary keys.  Python's `random.sample` is modelled
as an arbitrary oracle `pick : List α → Nat → List α` constrained by the
two properties `random.sample` guarantees: the draw has the requested size
and is a sub-multiset of the pool (`PickLen` / `PickSub`).  Python dicts
are association lists in insertion order; the allocator iterates kinds
positionally, which matches the source because dict keys are unique and
`all_kinds` lists exactly the keys the loop touches.
-/

namespace PlayPackFactory

/-- Constant `MAX_FOLDERS_PER_PACK = 20` (pack.py line 835). -/
def MAX_FOLDERS_PER_PACK : Nat := 20

/-- Constant `MAX_FILES_PER_PACK = 255` (pack.py line 836). -/
def MAX_FILES_PER_PACK : Nat := 255

/-- Constant `MAX_FILE_SIZE_KB = 400` (pack.py line 837). -/
def MAX_FILE_SIZE_KB : Nat := 400

/-- Priority list `FILL_KEYS = ["Kick", "Snare", "HiHat", "Synth", "Bass"]`
(pack.py line 1038). -/
def FILL_KEYS : List String := ["Kick", "Snare", "HiHat", "Synth", "Bass"]

/-- Python dict lookup `sample_map.get(k, [])` over an association list. -/
def lookupD {α : Type} (m : List (String × List α)) (k : String) : List α :=
  match m.find? (fun kv => decide (kv.1 = k)) with
  | some kv => kv.2
  | none => []

/-- Source line `available_subfolders = [k for k, v in sample_map.items() if len(v) > 0]`
(pack.py line 1033). -/
def availableSubfolders {α : Type} (m : List (String × List α)) : List String :=
  (m.filter (fun kv => decide (0 < kv.2.length))).map Prod.fst

/-- The category selector of `create_sample_pack` (pack.py lines 1036-1045):
when more than `MAX_FOLDERS_PER_PACK` pools are non-empty, admit `FILL_KEYS`
members first, then fill from the rest in map order. -/
def selectSubfolders {α : Type} (m : List (String × List α)) : List String :=
  let available := availableSubfolders m
  if MAX_FOLDERS_PER_PACK < available.length then
    let prioritized := FILL_KEYS.filter (fun k => decide (k ∈ available))
    let remaining := available.filter (fun k => decide (k ∉ prioritized))
    let selected := prioritized.take MAX_FOLDERS_PER_PACK
    if selected.length < MAX_FOLDERS_PER_PACK then
      selected ++ remaining.take (MAX_FOLDERS_PER_PACK - selected.length)
    else
      selected
  else
    available

/-- Per-kind allocator state: `remaining_samples[kind]` and
`selected_files[kind]` (pack.py lines 1030, 1059). -/
structure KindSlot (α : Type) where
  pool : List α
  sel : List α
deriving Repr, DecidableEq

/-- One kind's step inside a round (pack.py lines 1069-1084):
`sample_num = min(files_per_kind, len(kind_val))`; on a positive draw mark
the round non-empty, decrement `files_left`, clamping the draw so the
budget lands exactly at zero (`sample_num += files_left; files_left = 0`,
expressed over `Nat` as the equivalent case split), then remove the drawn
subset from the pool and append it to the selection. -/
def drawKind {α : Type} [DecidableEq α] (pick : List α → Nat → List α) (q : Nat)
    (filesLeft : Nat) (notEmpty : Bool) (slot : KindSlot α) :
    Nat × Bool × KindSlot α :=
  if slot.pool.isEmpty then (filesLeft, notEmpty, slot)
  else
    let sampleNum := min q slot.pool.length
    if 0 < sampleNum then
      -- `files_left -= sample_num; if files_left < 0: sample_num +=
      -- files_left; files_left = 0` over python ints is, over `Nat`: the
      -- draw is `sample_num` clamped to `files_left`, and `files_left`
      -- drops by the clamped draw.  `not_empty = True` is set before the
      -- clamp, so it is `True` here even when the clamped draw is 0.
      let draw := min sampleNum filesLeft
      if 0 < draw then
        let subset := pick slot.pool draw
        (filesLeft - draw, true,
          ⟨slot.pool.filter (fun x => !(decide (x ∈ subset))),
           slot.sel ++ subset⟩)
      else (filesLeft - draw, true, slot)
    else (filesLeft, notEmpty, slot)

/-- Source loop `for kind_key in all_kinds` — one round over all kinds in order
(pack.py lines 1069-1084). -/
def runRound {α : Type} [DecidableEq α] (pick : List α → Nat → List α) (q : Nat) :
    Nat → Bool → List (KindSlot α) → Nat × Bool × List (KindSlot α)
  | filesLeft, notEmpty, [] => (filesLeft, notEmpty, [])
  | filesLeft, notEmpty, slot :: rest =>
    let r1 := drawKind pick q filesLeft notEmpty slot
    let r2 := runRound pick q r1.1 r1.2.1 rest
    (r2.1, r2.2.1, r1.2.2 :: r2.2.2)

/-- Ghost observation recorded at the start of each executed round: the
round quota, `files_left`, and how many kinds still have a non-empty
remaining pool. -/
structure RoundInfo where
  quota : Nat
  budgetAtStart : Nat
  nonemptyAtStart : Nat
deriving Repr, DecidableEq

/-- Number of kinds whose remaining pool is non-empty. -/
def nonemptyCount {α : Type} (slots : List (KindSlot α)) : Nat :=
  (slots.filter (fun s => !s.pool.isEmpty)).length

/-- Source lines 1064-1066: `files_per_kind = MAX_FILES_PER_PACK //
len(all_kinds)` and then, guarded by `if i > 0:` (which always holds since
`i` starts at 1 and only grows), `files_per_kind = files_per_kind // i`. -/
def roundQuota (B n i : Nat) : Nat :=
  if 0 < i then B / n / i else B / n

/-- The allocator loop of `create_sample_pack` (pack.py lines 1061-1085),
with explicit fuel (the loop provably stabilises once the fuel exceeds
`B / n + 2`, see the termination theorems below).  Returns the trace of
executed rounds, the final `files_left` and the final slots.  Per source:
`while files_left > 0 and not_empty`, `break` on `len(all_kinds) == 0`,
`files_per_kind = MAX_FILES_PER_PACK // len(all_kinds)` and, because
`i > 0` always holds, `files_per_kind //= i`. -/
def allocLoop {α : Type} [DecidableEq α] (pick : List α → Nat → List α) (B n : Nat) :
    Nat → Nat → Nat → Bool → List (KindSlot α) →
    List RoundInfo × Nat × List (KindSlot α)
  | 0, _, filesLeft, _, slots => ([], filesLeft, slots)
  | fuel + 1, i, filesLeft, notEmpty, slots =>
    if 0 < filesLeft ∧ notEmpty = true then
      if n = 0 then ([], filesLeft, slots)
      else
        let q := roundQuota B n i
        let r := runRound pick q filesLeft false slots
        let res := allocLoop pick B n fuel (i + 1) r.1 r.2.1 r.2.2
        (⟨q, filesLeft, nonemptyCount slots⟩ :: res.1, res.2.1, res.2.2)
    else ([], filesLeft, slots)

/-- Initial slots: `remaining_samples = {k: v.copy() ...}` restricted to the
admitted kinds, paired with the empty selections. -/
def initSlots {α : Type} (m : List (String × List α)) (kinds : List String) :
    List (KindSlot α) :=
  kinds.map (fun k => ⟨lookupD m k, []⟩)

/-- The allocation stage of `create_sample_pack`, parameterised by the file
budget `B` (the source instantiates `B = MAX_FILES_PER_PACK` in both the
initial `files_left` and the quota formula). -/
def allocate {α : Type} [DecidableEq α] (pick : List α → Nat → List α) (B : Nat)
    (m : List (String × List α)) : List RoundInfo × Nat × List (KindSlot α) :=
  let kinds := selectSubfolders m
  allocLoop pick B kinds.length (B + 2) 1 B true (initSlots m kinds)

/-- The per-kind selections in kind order: the `AllocationPlan` of one pack
(keys not admitted keep their empty selection and are dropped here, which
changes no total and no membership). -/
def allocPlan {α : Type} [DecidableEq α] (pick : List α → Nat → List α) (B : Nat)
    (m : List (String × List α)) : List (String × List α) :=
  (selectSubfolders m).zip ((allocate pick B m).2.2.map KindSlot.sel)

/-- Plan of `create_sample_pack`: the allocator at the device budget. -/
def createPackPlan {α : Type} [DecidableEq α] (pick : List α → Nat → List α)
    (m : List (String × List α)) : List (String × List α) :=
  allocPlan pick MAX_FILES_PER_PACK m

/-- Total `sum(len(files) for files in AllocationPlan.values())`. -/
def planTotal {α : Type} (plan : List (String × List α)) : Nat :=
  (plan.map (fun kv => kv.2.length)).sum

/-- All file references of a plan, category by category. -/
def planFiles {α : Type} (plan : List (String × List α)) : List α :=
  (plan.map Prod.snd).flatten

/-- Total selections of a slot list. -/
def sumSel {α : Type} (slots : List (KindSlot α)) : Nat :=
  (slots.map (fun s => s.sel.length)).sum

/-- Total remaining pool sizes of a slot list. -/
def sumPool {α : Type} (slots : List (KindSlot α)) : Nat :=
  (slots.map (fun s => s.pool.length)).sum

/-- A deterministic stand-in for `random.sample` used by witnesses: take
the first `n` elements. -/
def pickTake {α : Type} (l : List α) (n : Nat) : List α := l.take n

/-- Property of `random.sample(pool, n)`: it returns exactly `n` elements. -/
def PickLen {α : Type} (pick : List α → Nat → List α) : Prop :=
  ∀ l n, n ≤ l.length → (pick l n).length = n

/-- Property of `random.sample(pool, n)`: it draws without replacement, so the result is a
sub-multiset of the pool. -/
def PickSub {α : Type} (pick : List α → Nat → List α) : Prop :=
  ∀ l n, n ≤ l.length → (pick l n).Subperm l

/-- Predicate: every remaining pool in the slot list is duplicate-free. -/
def AllPoolsNodup {α : Type} (slots : List (KindSlot α)) : Prop :=
  ∀ s ∈ slots, s.pool.Nodup

/-- Invariant tying a slot to the original candidate pool `orig` it was
initialised from: both its remaining pool and its selection are
duplicate-free subsets of `orig`, and the selection never overlaps the
remaining pool (drawn files are removed from it). -/
def SlotInv {α : Type} (orig : List α) (s : KindSlot α) : Prop :=
  s.pool.Nodup ∧ s.sel.Nodup ∧ (∀ x ∈ s.sel, x ∉ s.pool) ∧
    (∀ x ∈ s.pool, x ∈ orig) ∧ (∀ x ∈ s.sel, x ∈ orig)


/-! ## Pool builder: `collect_wav_files` over a modelled directory tree -/

/-- A file on disk as the walker sees it: its name and its size in KB
(the source computes `file_path.stat().st_size / 1024` and compares it to
`MAX_FILE_SIZE_KB`; the division is folded into the modelled size). -/
structure WavFile where
  fname : List Char
  sizeKB : Nat
deriving Repr, DecidableEq

/-- A directory tree: directory name, files directly inside, subdirectories. -/
inductive DirTree where
  | node (dname : List Char) (files : List WavFile) (subdirs : List DirTree)
deriving Repr

/-- Name of a directory node. -/
def DirTree.dname : DirTree → List Char
  | .node n _ _ => n

/-- Files directly inside a directory node. -/
def DirTree.files : DirTree → List WavFile
  | .node _ fs _ => fs

/-- Subdirectories of a directory node. -/
def DirTree.subdirs : DirTree → List DirTree
  | .node _ _ subs => subs

/-- The path separator. -/
def sepChar : Char := '/'

mutual

/-- Model of `os.walk(source_dir)`: the `(dirpath, filenames)` pairs of the
whole tree, top-down; `pre` is the path prefix of the node (empty for a
root, otherwise the parent path followed by the separator). -/
def walkTree (pre : List Char) : DirTree → List (List Char × List WavFile)
  | .node n fs subs => (pre ++ n, fs) :: walkForest (pre ++ n ++ [sepChar]) subs

/-- Walk of a list of sibling subdirectories, in order. -/
def walkForest (pre : List Char) : List DirTree → List (List Char × List WavFile)
  | [] => []
  | t :: ts => walkTree pre t ++ walkForest pre ts

end

/-- Lower-casing of a python string, `str.lower()`. -/
def lowerStr (s : List Char) : List Char := s.map Char.toLower

/-- Python's `needle in hay` substring test. -/
def isSubstr (needle hay : List Char) : Bool :=
  hay.tails.any (fun t => needle.isPrefixOf t)

/-- The two directory filters of `collect_wav_files` (pack.py lines
963-975): with a non-empty `include_dirs`, the directory path must contain
at least one of its substrings (case-insensitively); with a non-empty
`exclude_dirs`, it must contain none.  A failing directory is skipped by
`continue` — only its own files, since `os.walk` still descends. -/
def dirPasses (includeDirs excludeDirs : List (List Char)) (p : List Char) : Bool :=
  (includeDirs.isEmpty ||
      includeDirs.any (fun incl => isSubstr (lowerStr incl) (lowerStr p))) &&
    (excludeDirs.isEmpty ||
      !(excludeDirs.any (fun excl => isSubstr (lowerStr excl) (lowerStr p))))

/-- Per-file eligibility inside a surviving directory (pack.py lines
977-991): lower-cased name ends in `.wav`, size at most
`MAX_FILE_SIZE_KB`, and the optional pattern matches the filename (the
pattern is the external regex collaborator, modelled as a predicate). -/
def wavEligible (pattern : Option (List Char → Bool)) (f : WavFile) : Bool :=
  (".wav".toList).isSuffixOf (lowerStr f.fname) &&
    decide (f.sizeKB ≤ MAX_FILE_SIZE_KB) &&
    (match pattern with
     | some pat => pat f.fname
     | none => true)

/-- What one `(dirpath, filenames)` walk entry contributes to the pool:
nothing when the directory filters reject `dirpath`, otherwise the paths
of its eligible files. -/
def dirContribution (pattern : Option (List Char → Bool))
    (includeDirs excludeDirs : List (List Char))
    (entry : List Char × List WavFile) : List (List Char) :=
  if dirPasses includeDirs excludeDirs entry.1 then
    (entry.2.filter (wavEligible pattern)).map (fun f => entry.1 ++ sepChar :: f.fname)
  else []

/-- Model of `collect_wav_files` (pack.py lines 944-992): walk every source
root and flatten each directory's contribution. -/
def collect_wav_files (sourceDirs : List DirTree)
    (pattern : Option (List Char → Bool))
    (includeDirs excludeDirs : List (List Char)) : List (List Char) :=
  (((sourceDirs.map (walkTree [])).flatten).map
      (dirContribution pattern includeDirs excludeDirs)).flatten

/-! ## Materializer and normalization (`convert_audio`, pack.py 914-941,
and the per-file loop of `create_sample_pack`, pack.py 1096-1109) -/

/-- What happens when the external audio library loads the copied file. -/
inductive AudioLoadResult where
  | ok
  | couldntDecode
  | otherError
deriving Repr, DecidableEq

/-- How `convert_audio` returns.  It returns normally in every case: the
`except CouldntDecodeError` arm and the `except Exception` arm both print
and swallow the error (pack.py lines 938-941), so no exception ever
propagates to the caller. -/
inductive ConvertOutcome where
  | exported
  | decodeErrorLogged
  | errorLogged
deriving Repr, DecidableEq

/-- Model of `convert_audio` (pack.py lines 914-941).  On a decode failure
or any other processing error the function prints and returns; only a
successful run rewrites (exports) the destination file. -/
def convert_audio : AudioLoadResult → ConvertOutcome
  | .ok => .exported
  | .couldntDecode => .decodeErrorLogged
  | .otherError => .errorLogged

/-- Observable outcome of materializing one chosen file. -/
structure FileOutcome where
  destExists : Bool
  rollbackRan : Bool
deriving Repr, DecidableEq

/-- Model of one iteration of the per-file loop of `create_sample_pack`
(pack.py lines 1096-1109): copy the file, then call `convert_audio`.  The
`except` arm (which deletes the destination) runs only when the `try`
body raises — and `convert_audio` never raises, so only a failing
`shutil.copy2` reaches it. -/
def materializeFile (copyRaises : Bool) (audio : AudioLoadResult) : FileOutcome :=
  if copyRaises then
    { destExists := false, rollbackRan := true }
  else
    let _ := convert_audio audio
    { destExists := true, rollbackRan := false }

/-- The per-category file loop: every chosen file is processed, one after
the other, regardless of earlier outcomes. -/
def materializeFiles (files : List (Bool × AudioLoadResult)) : List FileOutcome :=
  files.map (fun fr => materializeFile fr.1 fr.2)

/-! ## Destination paths (`create_sample_pack`, pack.py 1089-1100) -/

/-- Model of `Path.name`: the component after the last separator. -/
def baseName (p : List Char) : List Char :=
  p.foldl (fun acc c => if c = sepChar then [] else acc ++ [c]) []

/-- Source line `dest_file_path = dest_subfolder / file_path.name` with
`dest_subfolder = pack_dir / subfolder` (pack.py lines 1092, 1097). -/
def destPath (packDir subfolder filePath : List Char) : List Char :=
  packDir ++ sepChar :: (subfolder ++ sepChar :: baseName filePath)

/-- The distinct destination paths a category's chosen files occupy after
materialization: `shutil.copy2` overwrites an existing destination, so
files sharing a destination leave a single file on disk. -/
def materializedPaths (packDir subfolder : List Char) (files : List (List Char)) :
    List (List Char) :=
  (files.map (destPath packDir subfolder)).dedup

/-! ## Concrete inputs used by counterexamples and witnesses -/

/-- Two categories with pools of sizes 1 and 300: the budget is crossed
mid-round and the clamped draw lands it exactly at zero. -/
def mapClamp : List (String × List Nat) :=
  [("A", [0]), ("B", (List.range 300).map (fun x => x + 10))]

/-- The spec's scarce-supply scenario: pools of sizes 2 and 3. -/
def mapScarce : List (String × List Nat) :=
  [("A", [0, 1]), ("B", [2, 3, 4])]

/-- Twenty categories: nineteen singleton pools and one pool of 236 files,
for a total candidate supply of exactly 255. -/
def mapSupply : List (String × List Nat) :=
  ((List.range 19).map (fun j => (toString j, [j]))) ++
    [("Big", (List.range 236).map (fun x => x + 1000))]

/-- Two categories with pools of sizes 10 and 200. -/
def mapQuota : List (String × List Nat) :=
  [("A", List.range 10), ("B", (List.range 200).map (fun x => x + 100))]

/-- Four categories: three singleton pools and one pool of 260 files. -/
def mapRounds : List (String × List Nat) :=
  [("A", [0]), ("B", [1]), ("C", [2]),
   ("D", (List.range 260).map (fun x => x + 10))]

/-- Two categories whose pools share the file `7`. -/
def mapShared : List (String × List Nat) :=
  [("A", [7]), ("B", [7])]

/-- One category whose pool holds 255 files. -/
def mapFull : List (String × List Nat) :=
  [("A", List.range 255)]

/-- Twenty-five non-empty categories: the five `FILL_KEYS` and twenty
others, all with distinct keys. -/
def mapMany : List (String × List Nat) :=
  (FILL_KEYS.map (fun k => (k, [0]))) ++
    (List.range 20).map (fun j => (toString j, [j]))

/-- A directory `Samples` (whose path does not contain `kick`) with a
subdirectory `Kicks` (whose path does) holding one small wav file. -/
def treeInclude : DirTree :=
  .node "Samples".toList []
    [.node "Kicks".toList [⟨"a.wav".toList, 10⟩] []]


/-! ## Basic allocator lemmas -/

theorem drawKind_fl_le {α : Type} [DecidableEq α] (pick : List α → Nat → List α)
    (q fl : Nat) (ne : Bool) (s : KindSlot α) :
    (drawKind pick q fl ne s).1 ≤ fl := by
  simp only [drawKind]
  split_ifs <;> simp [Nat.sub_le]

theorem drawKind_conserve {α : Type} [DecidableEq α] {pick : List α → Nat → List α}
    (hp : PickLen pick) (q fl : Nat) (ne : Bool) (s : KindSlot α) :
    (drawKind pick q fl ne s).2.2.sel.length + (drawKind pick q fl ne s).1 =
      s.sel.length + fl := by
  simp only [drawKind]
  split_ifs with h1 h2 h3
  · rfl
  · have hle : min (min q s.pool.length) fl ≤ s.pool.length :=
      le_trans (Nat.min_le_left _ _) (Nat.min_le_right _ _)
    have hfl : min (min q s.pool.length) fl ≤ fl := Nat.min_le_right _ _
    simp only [List.length_append, hp s.pool _ hle]
    omega
  · simp only []
    omega
  · rfl

theorem drawKind_ne_true {α : Type} [DecidableEq α] (pick : List α → Nat → List α)
    (q fl : Nat) (ne : Bool) (s : KindSlot α)
    (hpool : s.pool ≠ []) (hq : 0 < q) :
    (drawKind pick q fl ne s).2.1 = true := by
  have hlen : 0 < s.pool.length := List.length_pos.mpr hpool
  simp only [drawKind, List.isEmpty_iff]
  split_ifs with h1 h2 h3 <;> first
    | rfl
    | (exact absurd h1 hpool)
    | (exact absurd (Nat.lt_min.mpr ⟨hq, hlen⟩) h2)

theorem drawKind_ne_mono {α : Type} [DecidableEq α] (pick : List α → Nat → List α)
    (q fl : Nat) (s : KindSlot α) :
    (drawKind pick q fl true s).2.1 = true := by
  simp only [drawKind]
  split_ifs <;> rfl

theorem drawKind_zero {α : Type} [DecidableEq α] (pick : List α → Nat → List α)
    (fl : Nat) (ne : Bool) (s : KindSlot α) :
    drawKind pick 0 fl ne s = (fl, ne, s) := by
  simp only [drawKind]
  split_ifs with h1 h2 <;> first
    | rfl
    | (exact absurd h2 (by simp))

theorem runRound_len {α : Type} [DecidableEq α] (pick : List α → Nat → List α)
    (q : Nat) : ∀ (fl : Nat) (ne : Bool) (slots : List (KindSlot α)),
    (runRound pick q fl ne slots).2.2.length = slots.length
  | _, _, [] => rfl
  | fl, ne, s :: rest => by
    simp only [runRound, List.length_cons]
    rw [runRound_len pick q _ _ rest]

theorem runRound_fl_le {α : Type} [DecidableEq α] (pick : List α → Nat → List α)
    (q : Nat) : ∀ (fl : Nat) (ne : Bool) (slots : List (KindSlot α)),
    (runRound pick q fl ne slots).1 ≤ fl
  | _, _, [] => le_refl _
  | fl, ne, s :: rest => by
    simp only [runRound]
    exact le_trans (runRound_fl_le pick q _ _ rest) (drawKind_fl_le pick q fl ne s)

theorem runRound_conserve {α : Type} [DecidableEq α] {pick : List α → Nat → List α}
    (hp : PickLen pick) (q : Nat) :
    ∀ (fl : Nat) (ne : Bool) (slots : List (KindSlot α)),
    sumSel (runRound pick q fl ne slots).2.2 + (runRound pick q fl ne slots).1 =
      sumSel slots + fl
  | _, _, [] => rfl
  | fl, ne, s :: rest => by
    have h1 := drawKind_conserve hp q fl ne s
    have h2 := runRound_conserve hp q (drawKind pick q fl ne s).1
      (drawKind pick q fl ne s).2.1 rest
    simp only [runRound, sumSel, List.map_cons, List.sum_cons] at *
    omega

theorem runRound_zero {α : Type} [DecidableEq α] (pick : List α → Nat → List α) :
    ∀ (fl : Nat) (ne : Bool) (slots : List (KindSlot α)),
    runRound pick 0 fl ne slots = (fl, ne, slots)
  | _, _, [] => rfl
  | fl, ne, s :: rest => by
    simp only [runRound, drawKind_zero, runRound_zero pick fl ne rest]

/-! ## Allocator loop lemmas -/

theorem allocLoop_len {α : Type} [DecidableEq α] (pick : List α → Nat → List α)
    (B n : Nat) : ∀ (fuel i fl : Nat) (ne : Bool) (slots : List (KindSlot α)),
    (allocLoop pick B n fuel i fl ne slots).2.2.length = slots.length
  | 0, _, _, _, _ => rfl
  | fuel + 1, i, fl, ne, slots => by
    simp only [allocLoop]
    split_ifs with h1 h2
    · rfl
    · dsimp only
      rw [allocLoop_len pick B n fuel (i + 1), runRound_len]
    · rfl

theorem allocLoop_conserve {α : Type} [DecidableEq α] {pick : List α → Nat → List α}
    (hp : PickLen pick) (B n : Nat) :
    ∀ (fuel i fl : Nat) (ne : Bool) (slots : List (KindSlot α)),
    sumSel (allocLoop pick B n fuel i fl ne slots).2.2 +
        (allocLoop pick B n fuel i fl ne slots).2.1 =
      sumSel slots + fl
  | 0, _, _, _, _ => rfl
  | fuel + 1, i, fl, ne, slots => by
    simp only [allocLoop]
    split_ifs with h1 h2
    · rfl
    · have hr := runRound_conserve hp (roundQuota B n i) fl false slots
      have hrec := allocLoop_conserve hp B n fuel (i + 1)
        (runRound pick (roundQuota B n i) fl false slots).1
        (runRound pick (roundQuota B n i) fl false slots).2.1
        (runRound pick (roundQuota B n i) fl false slots).2.2
      dsimp only
      simp only [sumSel] at *
      omega
    · rfl

theorem sumSel_initSlots {α : Type} (m : List (String × List α)) (kinds : List String) :
    sumSel (initSlots m kinds) = 0 := by
  induction kinds with
  | nil => rfl
  | cons k rest ih => simp only [initSlots, sumSel, List.map_cons, List.sum_cons,
      List.map_map] at *; simpa using ih

theorem planTotal_eq_sumSel {α : Type} [DecidableEq α] (pick : List α → Nat → List α)
    (B : Nat) (m : List (String × List α)) :
    planTotal (allocPlan pick B m) = sumSel (allocate pick B m).2.2 := by
  have hlen : ((allocate pick B m).2.2.map KindSlot.sel).length =
      (selectSubfolders m).length := by
    simp only [allocate, List.length_map, allocLoop_len, initSlots, List.length_map]
  simp only [planTotal, allocPlan, sumSel]
  rw [show (fun kv : String × List α => kv.2.length) =
        (fun l : List α => l.length) ∘ Prod.snd from rfl, ← List.map_map,
      List.map_snd_zip _ _ (le_of_eq hlen), List.map_map]
  rfl

theorem allocate_total_le {α : Type} [DecidableEq α] {pick : List α → Nat → List α}
    (hp : PickLen pick) (B : Nat) (m : List (String × List α)) :
    planTotal (allocPlan pick B m) + (allocate pick B m).2.1 = B := by
  rw [planTotal_eq_sumSel]
  have := allocLoop_conserve hp B (selectSubfolders m).length (B + 2) 1 B true
    (initSlots m (selectSubfolders m))
  simp only [allocate]
  rw [this, sumSel_initSlots, Nat.zero_add]

/-! ## Witness helpers -/

theorem pickTake_len {α : Type} : PickLen (fun (l : List α) n => pickTake l n) := by
  intro l n h
  simp [pickTake, List.length_take, Nat.min_eq_left h]

theorem pickTake_sub {α : Type} : PickSub (fun (l : List α) n => pickTake l n) := by
  intro l n _
  exact (List.take_sublist n l).subperm


/-! ## Trace, stabilisation and round-count lemmas -/

theorem allocLoop_quota {α : Type} [DecidableEq α] (pick : List α → Nat → List α)
    (B n : Nat) : ∀ (fuel i fl : Nat) (ne : Bool) (slots : List (KindSlot α)),
    1 ≤ i → ∀ (j : Nat) (info : RoundInfo),
    (allocLoop pick B n fuel i fl ne slots).1.get? j = some info →
    info.quota = B / n / (i + j)
  | 0, i, fl, ne, slots => by
    intro _ j info h
    simp [allocLoop] at h
  | fuel + 1, i, fl, ne, slots => by
    intro hi j info h
    simp only [allocLoop] at h
    split_ifs at h with h1 h2
    · simp at h
    · match j with
      | 0 =>
        simp only [List.get?_cons_zero, Option.some.injEq] at h
        rw [← h]
        show roundQuota B n i = B / n / (i + 0)
        have hi0 : 0 < i := by omega
        rw [roundQuota, if_pos hi0, Nat.add_zero]
      | j + 1 =>
        simp only [List.get?_cons_succ] at h
        have := allocLoop_quota pick B n fuel (i + 1)
          (runRound pick (roundQuota B n i) fl false slots).1
          (runRound pick (roundQuota B n i) fl false slots).2.1
          (runRound pick (roundQuota B n i) fl false slots).2.2
          (by omega) j info h
        rw [this, show i + 1 + j = i + (j + 1) from by omega]
    · simp at h

theorem allocLoop_stable {α : Type} [DecidableEq α] (pick : List α → Nat → List α)
    (B n : Nat) : ∀ (fuel extra i fl : Nat) (ne : Bool) (slots : List (KindSlot α)),
    B / n + 3 ≤ i + fuel → (B / n + 1 < i → ne = false) →
    allocLoop pick B n (fuel + extra) i fl ne slots =
      allocLoop pick B n fuel i fl ne slots
  | 0, extra, i, fl, ne, slots => by
    intro hfuel hne
    have hne' : ne = false := hne (by omega)
    subst hne'
    cases extra with
    | zero => rfl
    | succ e =>
      rw [Nat.zero_add]
      simp only [allocLoop]
      rw [if_neg (by simp)]
  | fuel + 1, extra, i, fl, ne, slots => by
    intro hfuel hne
    rw [show fuel + 1 + extra = (fuel + extra) + 1 from by omega]
    simp only [allocLoop]
    split_ifs with h1 h2
    · rfl
    · have hstep : B / n + 1 < i + 1 →
          (runRound pick (roundQuota B n i) fl false slots).2.1 = false := by
        intro hlt
        have hBn : B / n < i := Nat.lt_of_succ_lt_succ hlt
        have hq : roundQuota B n i = 0 := by
          rw [roundQuota, if_pos (Nat.lt_of_le_of_lt (Nat.zero_le _) hBn)]
          exact Nat.div_eq_of_lt hBn
        rw [hq, runRound_zero]
      have hEq : i + (fuel + 1) = (i + 1) + fuel := by omega
      rw [allocLoop_stable pick B n fuel extra (i + 1)
        (runRound pick (roundQuota B n i) fl false slots).1
        (runRound pick (roundQuota B n i) fl false slots).2.1
        (runRound pick (roundQuota B n i) fl false slots).2.2
        (hEq ▸ hfuel) hstep]
    · rfl

theorem allocLoop_rounds {α : Type} [DecidableEq α] (pick : List α → Nat → List α)
    (B n : Nat) : ∀ (fuel i fl : Nat) (ne : Bool) (slots : List (KindSlot α)),
    (B / n + 1 < i → ne = false) →
    (allocLoop pick B n fuel i fl ne slots).1.length + i ≤ B / n + 2 ∨
      (allocLoop pick B n fuel i fl ne slots).1.length = 0
  | 0, i, fl, ne, slots => by
    intro _
    right
    rfl
  | fuel + 1, i, fl, ne, slots => by
    intro hne
    simp only [allocLoop]
    split_ifs with h1 h2
    · right; rfl
    · have hi : ¬(B / n + 1 < i) := fun hlt => by
        rw [hne hlt] at h1
        exact absurd h1.2 (by simp)
      have hstep : B / n + 1 < i + 1 →
          (runRound pick (roundQuota B n i) fl false slots).2.1 = false := by
        intro hlt
        have hBn : B / n < i := Nat.lt_of_succ_lt_succ hlt
        have hq : roundQuota B n i = 0 := by
          rw [roundQuota, if_pos (Nat.lt_of_le_of_lt (Nat.zero_le _) hBn)]
          exact Nat.div_eq_of_lt hBn
        rw [hq, runRound_zero]
      have hrec := allocLoop_rounds pick B n fuel (i + 1)
        (runRound pick (roundQuota B n i) fl false slots).1
        (runRound pick (roundQuota B n i) fl false slots).2.1
        (runRound pick (roundQuota B n i) fl false slots).2.2 hstep
      left
      dsimp only
      simp only [List.length_cons]
      omega
    · right; rfl

/-! ## Claim C1: the plan never exceeds the file budget -/

set_option maxRecDepth 200000 in
/-- C1.  For every mapping of categories to candidate pools — any pool
sizes, any number of categories — and any draw oracle that returns the
requested number of samples, the plan built by the allocator in
`create_sample_pack` totals at most `MAX_FILES_PER_PACK = 255`; and on the
pools-of-sizes-{1, 300} run the budget is crossed mid-round, the clamp
lands the remaining budget exactly at zero, and the plan totals
exactly 255. -/
theorem c1_budget_bound :
    (∀ (α : Type) [DecidableEq α] (pick : List α → Nat → List α),
        PickLen pick → ∀ m : List (String × List α),
        planTotal (createPackPlan pick m) ≤ MAX_FILES_PER_PACK) ∧
    planTotal (createPackPlan pickTake mapClamp) = MAX_FILES_PER_PACK := by
  constructor
  · intro α _ pick hp m
    have h := allocate_total_le hp MAX_FILES_PER_PACK m
    simp only [createPackPlan]
    omega
  · decide

/-- Witness for `c1_budget_bound`: its universal part applied at the
take-first oracle and the pools-of-sizes-{2, 3} map. -/
theorem c1_budget_bound_witness :
    planTotal (createPackPlan pickTake mapScarce) ≤ MAX_FILES_PER_PACK :=
  c1_budget_bound.1 Nat pickTake pickTake_len mapScarce


/-! ## Claim C3: the round quota formula -/

/-- C3 (amended).  In every executed round `i` (1-based, so trace index
`j = i - 1`) the quota recorded by the allocator equals
`(MAX_FILES_PER_PACK // len(all_kinds)) // i` — computed from the full
budget and the fixed admitted-category count, not from the remaining
budget or from the count of categories with non-empty remaining pools. -/
theorem c3_quota_amended :
    ∀ (α : Type) [DecidableEq α] (pick : List α → Nat → List α) (B : Nat)
      (m : List (String × List α)) (j : Nat) (info : RoundInfo),
    (allocate pick B m).1.get? j = some info →
    info.quota = B / (selectSubfolders m).length / (j + 1) := by
  intro α _ pick B m j info h
  simp only [allocate] at h
  have := allocLoop_quota pick B (selectSubfolders m).length (B + 2) 1 B true
    (initSlots m (selectSubfolders m)) (le_refl 1) j info h
  rw [this, Nat.add_comm 1 j]

set_option maxRecDepth 400000 in
/-- Witness for `c3_quota_amended` at pools of sizes {10, 200}, trace
index 1 (the second round). -/
theorem c3_quota_amended_witness :
    (⟨63, 118, 1⟩ : RoundInfo).quota =
      255 / (selectSubfolders mapQuota).length / 2 :=
  c3_quota_amended Nat pickTake 255 mapQuota 1 ⟨63, 118, 1⟩ (by decide)

set_option maxRecDepth 400000 in
/-- C3 (counterexample).  On pools of sizes {10, 200} the allocator's
second round ran with quota 63 while the remaining budget was 118 and
exactly one category still had a non-empty remaining pool; the claimed
formula `floor(floor(remaining_budget / nonempty_count) / i)` would give
`118 / 1 / 2 = 59 ≠ 63`. -/
theorem c3_quota_counterexample :
    (allocate pickTake 255 mapQuota).1.get? 1 = some ⟨63, 118, 1⟩ ∧
    (118 : Nat) / 1 / 2 = 59 ∧ (63 : Nat) ≠ 59 := by
  exact ⟨by decide, by decide, by decide⟩

/-! ## Claim C6: termination and the round-count bound -/

/-- C6 (amended).  For every admitted-category set and all pool sizes the
allocator loop terminates — the fuelled loop is already stable at fuel
`B + 2`, because a round whose quota underflows to zero draws nothing and
ends the loop — and with `n` admitted kinds the number of executed rounds
is at most `B / n + 1`.  (The spec's bound `ceil(log2 B) + n` fails, see
the counterexample.) -/
theorem c6_termination_amended :
    ∀ (α : Type) [DecidableEq α] (pick : List α → Nat → List α) (B : Nat)
      (m : List (String × List α)),
    (∀ extra : Nat,
        allocLoop pick B (selectSubfolders m).length (B + 2 + extra) 1 B true
            (initSlots m (selectSubfolders m)) = allocate pick B m) ∧
    (allocate pick B m).1.length ≤ B / (selectSubfolders m).length + 1 := by
  intro α _ pick B m
  have hdiv := Nat.div_le_self B (selectSubfolders m).length
  have hvac : B / (selectSubfolders m).length + 1 < 1 → (true : Bool) = false := by
    intro h
    exact absurd h (Nat.not_lt.mpr (Nat.succ_le_succ (Nat.zero_le _)))
  constructor
  · intro extra
    show _ = allocLoop pick B (selectSubfolders m).length (B + 2) 1 B true _
    refine allocLoop_stable pick B (selectSubfolders m).length (B + 2) extra 1 B true
      (initSlots m (selectSubfolders m)) ?_ hvac
    rw [show 1 + (B + 2) = B + 3 from by omega]
    exact Nat.add_le_add_right hdiv 3
  · have h := allocLoop_rounds pick B (selectSubfolders m).length (B + 2) 1 B true
      (initSlots m (selectSubfolders m)) hvac
    simp only [allocate]
    rcases h with h | h
    · exact Nat.le_of_succ_le_succ h
    · rw [h]
      exact Nat.zero_le _

set_option maxRecDepth 1000000 in
/-- C6 (counterexample).  With four admitted categories and pools of sizes
{1, 1, 1, 260} the loop executes 42 rounds, exceeding the claimed bound
`ceil(log2 255) + 4 = 8 + 4 = 12`. -/
theorem c6_rounds_counterexample :
    (selectSubfolders mapRounds).length = 4 ∧
    (allocate pickTake 255 mapRounds).1.length = 42 ∧
    Nat.clog 2 255 + 4 = 12 ∧
    ¬((allocate pickTake 255 mapRounds).1.length ≤ Nat.clog 2 255 + 4) := by
  have hclog : Nat.clog 2 255 = 8 := by
    have h1 : Nat.clog 2 255 ≤ 8 := (Nat.le_pow_iff_clog_le (by norm_num)).mp (by norm_num)
    have h2 : ¬(Nat.clog 2 255 ≤ 7) := fun h =>
      absurd ((Nat.le_pow_iff_clog_le (by norm_num)).mpr h) (by norm_num)
    omega
  have hlen : (allocate pickTake 255 mapRounds).1.length = 42 := by decide
  refine ⟨by decide, hlen, by rw [hclog], ?_⟩
  rw [hlen, hclog]
  omega


/-! ## Nodup and pool-size bookkeeping -/

theorem subperm_nodup {α : Type} {l₁ l₂ : List α} (h : l₁.Subperm l₂)
    (hn : l₂.Nodup) : l₁.Nodup := by
  obtain ⟨l, hperm, hsub⟩ := h
  exact hperm.nodup (hn.sublist hsub)

theorem length_filter_split {α : Type} (p : α → Bool) (l : List α) :
    (l.filter p).length + (l.filter (fun x => !(p x))).length = l.length := by
  induction l with
  | nil => rfl
  | cons a t ih =>
    by_cases h : p a <;> simp [List.filter_cons, h] <;> omega

theorem filter_mem_length {α : Type} [DecidableEq α] {pool subset : List α}
    (hpool : pool.Nodup) (hsp : subset.Subperm pool) :
    (pool.filter (fun x => decide (x ∈ subset))).length = subset.length := by
  apply le_antisymm
  · apply List.Subperm.length_le
    apply List.Nodup.subperm (hpool.filter _)
    intro x hx
    have := (List.mem_filter.mp hx).2
    simpa using this
  · apply List.Subperm.length_le
    apply List.Nodup.subperm (subperm_nodup hsp hpool)
    intro x hx
    exact List.mem_filter.mpr ⟨hsp.subset hx, by simpa using hx⟩

theorem filter_not_mem_length {α : Type} [DecidableEq α] {pool subset : List α}
    (hpool : pool.Nodup) (hsp : subset.Subperm pool) :
    (pool.filter (fun x => !(decide (x ∈ subset)))).length =
      pool.length - subset.length := by
  have hsplit := length_filter_split (fun x => decide (x ∈ subset)) pool
  have hA := filter_mem_length hpool hsp
  omega

theorem drawKind_pool_nodup {α : Type} [DecidableEq α] (pick : List α → Nat → List α)
    (q fl : Nat) (ne : Bool) (s : KindSlot α) (hnd : s.pool.Nodup) :
    (drawKind pick q fl ne s).2.2.pool.Nodup := by
  simp only [drawKind]
  split_ifs <;> first
    | exact hnd
    | exact hnd.filter _

theorem drawKind_pool_conserve {α : Type} [DecidableEq α]
    {pick : List α → Nat → List α} (hlen : PickLen pick) (hsub : PickSub pick)
    (q fl : Nat) (ne : Bool) (s : KindSlot α) (hnd : s.pool.Nodup) :
    (drawKind pick q fl ne s).2.2.pool.length +
        (drawKind pick q fl ne s).2.2.sel.length =
      s.pool.length + s.sel.length := by
  simp only [drawKind]
  split_ifs with h1 h2 h3
  · rfl
  · have hd : min (min q s.pool.length) fl ≤ s.pool.length :=
      le_trans (Nat.min_le_left _ _) (Nat.min_le_right _ _)
    have hL := hlen s.pool _ hd
    have hS := hsub s.pool _ hd
    simp only [List.length_append, filter_not_mem_length hnd hS, hL]
    omega
  · rfl
  · rfl

theorem runRound_pool_nodup {α : Type} [DecidableEq α] (pick : List α → Nat → List α)
    (q : Nat) : ∀ (fl : Nat) (ne : Bool) (slots : List (KindSlot α)),
    AllPoolsNodup slots → AllPoolsNodup (runRound pick q fl ne slots).2.2
  | _, _, [], _ => by intro s hs; simp [runRound] at hs
  | fl, ne, s :: rest, hnd => by
    intro t ht
    simp only [runRound, List.mem_cons] at ht
    rcases ht with ht | ht
    · rw [ht]
      exact drawKind_pool_nodup pick q fl ne s (hnd s (by simp))
    · exact runRound_pool_nodup pick q _ _ rest
        (fun u hu => hnd u (by simp [hu])) t ht

theorem runRound_pool_conserve {α : Type} [DecidableEq α]
    {pick : List α → Nat → List α} (hlen : PickLen pick) (hsub : PickSub pick)
    (q : Nat) : ∀ (fl : Nat) (ne : Bool) (slots : List (KindSlot α)),
    AllPoolsNodup slots →
    sumPool (runRound pick q fl ne slots).2.2 +
        sumSel (runRound pick q fl ne slots).2.2 =
      sumPool slots + sumSel slots
  | _, _, [], _ => rfl
  | fl, ne, s :: rest, hnd => by
    have h1 := drawKind_pool_conserve hlen hsub q fl ne s (hnd s (by simp))
    have h2 := runRound_pool_conserve hlen hsub q (drawKind pick q fl ne s).1
      (drawKind pick q fl ne s).2.1 rest (fun u hu => hnd u (by simp [hu]))
    simp only [runRound, sumPool, sumSel, List.map_cons, List.sum_cons] at *
    omega

theorem allocLoop_pool_nodup {α : Type} [DecidableEq α] (pick : List α → Nat → List α)
    (B n : Nat) : ∀ (fuel i fl : Nat) (ne : Bool) (slots : List (KindSlot α)),
    AllPoolsNodup slots →
    AllPoolsNodup (allocLoop pick B n fuel i fl ne slots).2.2
  | 0, _, _, _, slots, hnd => hnd
  | fuel + 1, i, fl, ne, slots, hnd => by
    simp only [allocLoop]
    split_ifs with h1 h2
    · exact hnd
    · exact allocLoop_pool_nodup pick B n fuel (i + 1) _ _ _
        (runRound_pool_nodup pick (roundQuota B n i) fl false slots hnd)
    · exact hnd

theorem allocLoop_pool_conserve {α : Type} [DecidableEq α]
    {pick : List α → Nat → List α} (hlen : PickLen pick) (hsub : PickSub pick)
    (B n : Nat) : ∀ (fuel i fl : Nat) (ne : Bool) (slots : List (KindSlot α)),
    AllPoolsNodup slots →
    sumPool (allocLoop pick B n fuel i fl ne slots).2.2 +
        sumSel (allocLoop pick B n fuel i fl ne slots).2.2 =
      sumPool slots + sumSel slots
  | 0, _, _, _, slots, _ => rfl
  | fuel + 1, i, fl, ne, slots, hnd => by
    simp only [allocLoop]
    split_ifs with h1 h2
    · rfl
    · have hr := runRound_pool_conserve hlen hsub (roundQuota B n i) fl false slots hnd
      have hrec := allocLoop_pool_conserve hlen hsub B n fuel (i + 1)
        (runRound pick (roundQuota B n i) fl false slots).1
        (runRound pick (roundQuota B n i) fl false slots).2.1
        (runRound pick (roundQuota B n i) fl false slots).2.2
        (runRound_pool_nodup pick (roundQuota B n i) fl false slots hnd)
      dsimp only
      omega
    · rfl

theorem lookupD_nodup {α : Type} {m : List (String × List α)}
    (h : ∀ kv ∈ m, kv.2.Nodup) (k : String) : (lookupD m k).Nodup := by
  unfold lookupD
  cases hf : m.find? (fun kv => decide (kv.1 = k)) with
  | none => exact List.nodup_nil
  | some kv => exact h kv (List.mem_of_find?_eq_some hf)

theorem initSlots_pool_nodup {α : Type} {m : List (String × List α)}
    (h : ∀ kv ∈ m, kv.2.Nodup) (kinds : List String) :
    AllPoolsNodup (initSlots m kinds) := by
  intro s hs
  simp only [initSlots, List.mem_map] at hs
  obtain ⟨k, _, hk⟩ := hs
  rw [← hk]
  exact lookupD_nodup h k

/-! ## Claim C9: scarce supply degrades without error -/

/-- C9.  With two admitted categories holding pools of sizes 2 and 3 and a
total budget of 100 the allocator yields a plan totalling exactly 5 — every
available candidate, no error (the embedded allocator is a total function);
in general, when the admitted categories' total candidate supply is below
the budget the plan simply totals fewer files than the budget, and an empty
admitted set yields an empty plan. -/
theorem c9_scarce_degradation :
    planTotal (allocPlan pickTake 100 mapScarce) = 5 ∧
    (∀ (α : Type) [DecidableEq α] (pick : List α → Nat → List α) (B : Nat)
        (m : List (String × List α)),
      PickLen pick → PickSub pick → (∀ kv ∈ m, kv.2.Nodup) →
      sumPool (initSlots m (selectSubfolders m)) < B →
      planTotal (allocPlan pick B m) < B) ∧
    (∀ (α : Type) [DecidableEq α] (pick : List α → Nat → List α) (B : Nat)
        (m : List (String × List α)),
      selectSubfolders m = [] → allocPlan pick B m = []) := by
  refine ⟨by decide, ?_, ?_⟩
  · intro α _ pick B m hlen hsub hnd hsupply
    rw [planTotal_eq_sumSel]
    have hinit := initSlots_pool_nodup hnd (selectSubfolders m)
    have hcons := allocLoop_pool_conserve hlen hsub B (selectSubfolders m).length
      (B + 2) 1 B true (initSlots m (selectSubfolders m)) hinit
    rw [sumSel_initSlots] at hcons
    simp only [allocate]
    omega
  · intro α _ pick B m h
    simp [allocPlan, h]

/-- Witness for `c9_scarce_degradation`: the degradation part at the
take-first oracle, budget 255 and pools of sizes {2, 3}. -/
theorem c9_scarce_degradation_witness :
    planTotal (allocPlan pickTake 255 mapScarce) < 255 :=
  c9_scarce_degradation.2.1 Nat pickTake 255 mapScarce pickTake_len pickTake_sub
    (by decide) (by decide)


/-! ## Claim C5: the category selector -/

/-- C5.  For every category-to-pool mapping with distinct keys (a python
dict invariant), with `P` non-empty pools the selector admits exactly
`min P MAX_FOLDERS_PER_PACK` categories; and whenever `P` exceeds the cap,
every `FILL_KEYS` category with a non-empty pool is admitted, and the
admitted list is exactly those priority categories followed by
non-priority ones. -/
theorem c5_selector :
    ∀ (α : Type) (m : List (String × List α)), (m.map Prod.fst).Nodup →
    ((selectSubfolders m).length =
        min (availableSubfolders m).length MAX_FOLDERS_PER_PACK) ∧
    (MAX_FOLDERS_PER_PACK < (availableSubfolders m).length →
      (∀ k ∈ FILL_KEYS, k ∈ availableSubfolders m → k ∈ selectSubfolders m) ∧
      ∃ others, selectSubfolders m =
          FILL_KEYS.filter (fun k => decide (k ∈ availableSubfolders m)) ++ others ∧
        ∀ k ∈ others, k ∉ FILL_KEYS) := by
  intro α m hkeys
  have hAnodup : (availableSubfolders m).Nodup := by
    have hsub : List.Sublist
        ((m.filter (fun kv => decide (0 < kv.2.length))).map Prod.fst)
        (m.map Prod.fst) := List.Sublist.map Prod.fst (List.filter_sublist m)
    exact hkeys.sublist hsub
  by_cases hP : MAX_FOLDERS_PER_PACK < (availableSubfolders m).length
  case neg =>
    have hsel : selectSubfolders m = availableSubfolders m := by
      simp only [selectSubfolders]
      rw [if_neg hP]
    refine ⟨?_, fun h => absurd h hP⟩
    rw [hsel, Nat.min_eq_left (by omega)]
  case pos =>
    set A := availableSubfolders m with hA
    set prio := FILL_KEYS.filter (fun k => decide (k ∈ A)) with hprio
    set rem := A.filter (fun k => decide (k ∉ prio)) with hrem
    have hprio_len : prio.length ≤ 5 := by
      have h5 := List.length_filter_le (fun k => decide (k ∈ A)) FILL_KEYS
      simpa [FILL_KEYS] using h5
    have htake : prio.take MAX_FOLDERS_PER_PACK = prio :=
      List.take_of_length_le (by simp only [MAX_FOLDERS_PER_PACK]; omega)
    have hsel : selectSubfolders m =
        prio ++ rem.take (MAX_FOLDERS_PER_PACK - prio.length) := by
      simp only [selectSubfolders]
      rw [if_pos hP, htake, if_pos (by simp only [MAX_FOLDERS_PER_PACK]; omega)]
    have hAfilter_le : (A.filter (fun k => decide (k ∈ prio))).length ≤ prio.length := by
      apply List.Subperm.length_le
      apply List.Nodup.subperm (hAnodup.filter _)
      intro x hx
      have hx2 := (List.mem_filter.mp hx).2
      simpa using hx2
    have hrem_len : rem.length +
        (A.filter (fun k => decide (k ∈ prio))).length = A.length := by
      have hsplit := length_filter_split (fun k => decide (k ∈ prio)) A
      have heq : rem = A.filter (fun k => !(decide (k ∈ prio))) := by
        simp only [hrem, decide_not]
      rw [heq]
      omega
    have hrem_ge : MAX_FOLDERS_PER_PACK - prio.length ≤ rem.length := by
      simp only [MAX_FOLDERS_PER_PACK] at hP ⊢
      omega
    have hlen_sel : (selectSubfolders m).length = MAX_FOLDERS_PER_PACK := by
      rw [hsel]
      simp only [List.length_append, List.length_take, MAX_FOLDERS_PER_PACK] at *
      omega
    refine ⟨?_, fun _ => ⟨?_, ?_⟩⟩
    · rw [hlen_sel, Nat.min_eq_right (le_of_lt hP)]
    · intro k hk hkA
      rw [hsel]
      apply List.mem_append_left
      exact List.mem_filter.mpr ⟨hk, by simpa using hkA⟩
    · refine ⟨rem.take (MAX_FOLDERS_PER_PACK - prio.length), hsel, ?_⟩
      intro k hk hkF
      have hkrem : k ∈ rem := List.mem_of_mem_take hk
      have hsplitk := List.mem_filter.mp hkrem
      have hknotp : k ∉ prio := by simpa using hsplitk.2
      exact hknotp (List.mem_filter.mpr ⟨hkF, by simpa using hsplitk.1⟩)

/-- Witness for `c5_selector` at a 25-category map with distinct keys. -/
theorem c5_selector_witness :
    (selectSubfolders mapMany).length =
      min (availableSubfolders mapMany).length MAX_FOLDERS_PER_PACK :=
  (c5_selector Nat mapMany (by decide)).1


/-! ## Claim C4: no duplication within a pack -/

theorem drawKind_inv {α : Type} [DecidableEq α] {pick : List α → Nat → List α}
    (hsub : PickSub pick) (q fl : Nat) (ne : Bool) {orig : List α}
    {s : KindSlot α} (h : SlotInv orig s) :
    SlotInv orig (drawKind pick q fl ne s).2.2 := by
  obtain ⟨hpn, hsn, hdisj, hpo, hso⟩ := h
  simp only [drawKind]
  split_ifs with h1 h2 h3
  · exact ⟨hpn, hsn, hdisj, hpo, hso⟩
  · have hdle : min (min q s.pool.length) fl ≤ s.pool.length :=
      le_trans (Nat.min_le_left _ _) (Nat.min_le_right _ _)
    have hsp := hsub s.pool _ hdle
    have hsubsetpool : ∀ x ∈ pick s.pool (min (min q s.pool.length) fl),
        x ∈ s.pool := fun x hx => hsp.subset hx
    have hsubnodup := subperm_nodup hsp hpn
    refine ⟨hpn.filter _, ?_, ?_, ?_, ?_⟩
    · apply List.Nodup.append hsn hsubnodup
      intro x hx1 hx2
      exact hdisj x hx1 (hsubsetpool x hx2)
    · intro x hx hxp
      have hxnot := (List.mem_filter.mp hxp).2
      rcases List.mem_append.mp hx with hx | hx
      · exact hdisj x hx (List.mem_filter.mp hxp).1
      · simp only [Bool.not_eq_eq_eq_not, Bool.not_true, decide_eq_false_iff_not] at hxnot
        exact hxnot hx
    · intro x hx
      exact hpo x (List.mem_filter.mp hx).1
    · intro x hx
      rcases List.mem_append.mp hx with hx | hx
      · exact hso x hx
      · exact hpo x (hsubsetpool x hx)
  · exact ⟨hpn, hsn, hdisj, hpo, hso⟩
  · exact ⟨hpn, hsn, hdisj, hpo, hso⟩

theorem runRound_inv {α : Type} [DecidableEq α] {pick : List α → Nat → List α}
    (hsub : PickSub pick) (q : Nat) {origs : List (List α)}
    {slots : List (KindSlot α)} (h : List.Forall₂ SlotInv origs slots) :
    ∀ (fl : Nat) (ne : Bool),
    List.Forall₂ SlotInv origs (runRound pick q fl ne slots).2.2 := by
  induction h with
  | nil => intro fl ne; exact List.Forall₂.nil
  | cons hR hrest ih =>
    intro fl ne
    simp only [runRound]
    exact List.Forall₂.cons (drawKind_inv hsub q fl ne hR) (ih _ _)

theorem allocLoop_inv {α : Type} [DecidableEq α] {pick : List α → Nat → List α}
    (hsub : PickSub pick) (B n : Nat) :
    ∀ (fuel i fl : Nat) (ne : Bool) {origs : List (List α)}
      {slots : List (KindSlot α)}, List.Forall₂ SlotInv origs slots →
    List.Forall₂ SlotInv origs (allocLoop pick B n fuel i fl ne slots).2.2
  | 0, _, _, _, _, _, h => h
  | fuel + 1, i, fl, ne, origs, slots, h => by
    simp only [allocLoop]
    split_ifs with h1 h2
    · exact h
    · exact allocLoop_inv hsub B n fuel (i + 1) _ _
        (runRound_inv hsub (roundQuota B n i) h fl false)
    · exact h

theorem forall2_exists_left {α β : Type} {R : α → β → Prop} :
    ∀ {l₁ : List α} {l₂ : List β}, List.Forall₂ R l₁ l₂ →
    ∀ b ∈ l₂, ∃ a ∈ l₁, R a b := by
  intro l₁ l₂ h
  induction h with
  | nil => intro b hb; cases hb
  | cons hR _ ih =>
    intro b hb
    rcases List.mem_cons.mp hb with hb | hb
    · exact ⟨_, List.mem_cons_self _ _, hb ▸ hR⟩
    · obtain ⟨a, ha, hr⟩ := ih b hb
      exact ⟨a, List.mem_cons_of_mem _ ha, hr⟩

theorem forall2_pairwise {α β : Type} {R : α → β → Prop} {P : α → α → Prop}
    {Q : β → β → Prop}
    (himp : ∀ a₁ b₁ a₂ b₂, R a₁ b₁ → R a₂ b₂ → P a₁ a₂ → Q b₁ b₂) :
    ∀ {l₁ : List α} {l₂ : List β}, List.Forall₂ R l₁ l₂ →
    l₁.Pairwise P → l₂.Pairwise Q := by
  intro l₁ l₂ hf
  induction hf with
  | nil => intro _; exact List.Pairwise.nil
  | cons hR hrest ih =>
    intro hp
    rcases List.pairwise_cons.mp hp with ⟨hhead, htail⟩
    refine List.pairwise_cons.mpr ⟨?_, ih htail⟩
    intro b hb
    obtain ⟨a, ha, hr⟩ := forall2_exists_left hrest b hb
    exact himp _ _ _ _ hR hr (hhead a ha)

theorem available_subset_keys {α : Type} (m : List (String × List α)) :
    ∀ k ∈ availableSubfolders m, k ∈ m.map Prod.fst := by
  intro k hk
  simp only [availableSubfolders, List.mem_map] at hk
  obtain ⟨kv, hkv, hfst⟩ := hk
  exact List.mem_map.mpr ⟨kv, List.mem_of_mem_filter hkv, hfst⟩

theorem select_subset_available {α : Type} (m : List (String × List α)) :
    ∀ k ∈ selectSubfolders m, k ∈ availableSubfolders m := by
  intro k hk
  simp only [selectSubfolders] at hk
  split_ifs at hk with h1 h2
  · rcases List.mem_append.mp hk with hk | hk
    · have := List.mem_of_mem_take hk
      exact (List.mem_filter.mp this).2 |> fun h => by simpa using h
    · have := List.mem_of_mem_take hk
      have := (List.mem_filter.mp this).1
      exact this
  · have := List.mem_of_mem_take hk
    exact (List.mem_filter.mp this).2 |> fun h => by simpa using h
  · exact hk

theorem select_nodup {α : Type} {m : List (String × List α)}
    (hkeys : (m.map Prod.fst).Nodup) : (selectSubfolders m).Nodup := by
  have hAnodup : (availableSubfolders m).Nodup := by
    have hsub : List.Sublist
        ((m.filter (fun kv => decide (0 < kv.2.length))).map Prod.fst)
        (m.map Prod.fst) := List.Sublist.map Prod.fst (List.filter_sublist m)
    exact hkeys.sublist hsub
  simp only [selectSubfolders]
  split_ifs with h1 h2
  · apply List.Nodup.append
    · exact (by decide : FILL_KEYS.Nodup).filter _ |>.sublist
        (List.take_sublist _ _)
    · exact (hAnodup.filter _).sublist (List.take_sublist _ _)
    · intro k hk1 hk2
      have hk1' : k ∈ FILL_KEYS.filter (fun k => decide (k ∈ availableSubfolders m)) :=
        List.mem_of_mem_take hk1
      have hk2' := List.mem_of_mem_take hk2
      have := (List.mem_filter.mp hk2').2
      simp only [decide_eq_true_eq] at this
      exact this hk1'
  · exact ((by decide : FILL_KEYS.Nodup).filter _).sublist (List.take_sublist _ _)
  · exact hAnodup

theorem lookupD_entry {α : Type} {m : List (String × List α)} {k : String}
    (hk : k ∈ m.map Prod.fst) :
    ∃ kv ∈ m, kv.1 = k ∧ lookupD m k = kv.2 := by
  obtain ⟨kv0, hkv0, hfst⟩ := List.mem_map.mp hk
  have hsome : (m.find? (fun kv => decide (kv.1 = k))).isSome := by
    rw [List.find?_isSome]
    exact ⟨kv0, hkv0, by simp [hfst]⟩
  obtain ⟨kv, hfind⟩ := Option.isSome_iff_exists.mp hsome
  refine ⟨kv, List.mem_of_find?_eq_some hfind, ?_, ?_⟩
  · have := List.find?_some hfind
    simpa using this
  · simp only [lookupD, hfind]

/-- C4 (amended).  Provided the candidate pools are duplicate-free and
pairwise disjoint across the map's entries (alongside the python dict
invariant of distinct keys), the same file reference never appears twice in
the plan of one pack: each category's chosen set is duplicate-free and no
file lands in two categories. -/
theorem c4_no_duplication_amended :
    ∀ (α : Type) [DecidableEq α] (pick : List α → Nat → List α) (B : Nat)
      (m : List (String × List α)),
    PickSub pick →
    (m.map Prod.fst).Nodup →
    (∀ kv ∈ m, kv.2.Nodup) →
    (m.Pairwise (fun kv1 kv2 => ∀ x ∈ kv1.2, x ∉ kv2.2)) →
    (planFiles (allocPlan pick B m)).Nodup := by
  intro α _ pick B m hsub hkeys hnd hdisj
  have hkinds_nodup : (selectSubfolders m).Nodup := select_nodup hkeys
  -- the original pools of the admitted kinds, in kind order
  set origs := (selectSubfolders m).map (lookupD m) with horigs
  have hinit : List.Forall₂ SlotInv origs (initSlots m (selectSubfolders m)) := by
    rw [horigs]
    simp only [initSlots]
    induction selectSubfolders m with
    | nil => exact List.Forall₂.nil
    | cons k rest ih =>
      refine List.Forall₂.cons ?_ ih
      refine ⟨lookupD_nodup hnd k, List.nodup_nil, ?_, fun x hx => hx, ?_⟩
      · intro x hx; cases hx
      · intro x hx; cases hx
  have hfinal := allocLoop_inv hsub B (selectSubfolders m).length (B + 2) 1 B true hinit
  -- the plan's flattened file list is the flattened final selections
  have hlen : ((allocate pick B m).2.2.map KindSlot.sel).length =
      (selectSubfolders m).length := by
    simp only [allocate, List.length_map, allocLoop_len, initSlots, List.length_map]
  have hplan : planFiles (allocPlan pick B m) =
      ((allocate pick B m).2.2.map KindSlot.sel).flatten := by
    simp only [planFiles, allocPlan]
    rw [List.map_snd_zip _ _ (le_of_eq hlen)]
  rw [hplan]
  rw [List.nodup_flatten]
  constructor
  · intro l hl
    obtain ⟨slot, hslot, hsel⟩ := List.mem_map.mp hl
    obtain ⟨o, _, hinv⟩ := forall2_exists_left hfinal slot (by
      simpa only [allocate] using hslot)
    exact hsel ▸ hinv.2.1
  · -- pairwise disjointness of the final selections
    have horig_pairwise : origs.Pairwise List.Disjoint := by
      rw [horigs, List.pairwise_map]
      have hpair : (selectSubfolders m).Pairwise (fun a b => a ≠ b) := hkinds_nodup
      refine hpair.imp ?_
      intro a b hab
      -- disjointness of the two looked-up pools
      by_cases hak : a ∈ m.map Prod.fst
      case neg =>
        intro x hxa
        exfalso
        have : lookupD m a = [] := by
          simp only [lookupD]
          cases hf : m.find? (fun kv => decide (kv.1 = a)) with
          | none => rfl
          | some kv =>
            exact absurd (List.mem_map.mpr ⟨kv, List.mem_of_find?_eq_some hf,
              by simpa using List.find?_some hf⟩) hak
        rw [this] at hxa
        cases hxa
      case pos =>
        by_cases hbk : b ∈ m.map Prod.fst
        case neg =>
          intro x _ hxb
          have : lookupD m b = [] := by
            simp only [lookupD]
            cases hf : m.find? (fun kv => decide (kv.1 = b)) with
            | none => rfl
            | some kv =>
              exact absurd (List.mem_map.mpr ⟨kv, List.mem_of_find?_eq_some hf,
                by simpa using List.find?_some hf⟩) hbk
          rw [this] at hxb
          cases hxb
        case pos =>
          obtain ⟨kva, hkva, hfsta, hla⟩ := lookupD_entry hak
          obtain ⟨kvb, hkvb, hfstb, hlb⟩ := lookupD_entry hbk
          have hkvne : kva ≠ kvb := fun hEq => hab (by rw [← hfsta, ← hfstb, hEq])
          have hsym : Symmetric (fun kv1 kv2 : String × List α =>
              ∀ x ∈ kv1.2, x ∉ kv2.2) := by
            intro u v huv x hxv hxu
            exact huv x hxu hxv
          have := hdisj.forall hsym hkva hkvb hkvne
          intro x hxa hxb
          rw [hla] at hxa
          rw [hlb] at hxb
          exact this x hxa hxb
    rw [List.pairwise_map]
    refine forall2_pairwise ?_ hfinal horig_pairwise
    intro o1 s1 o2 s2 hi1 hi2 hd x hx1 hx2
    exact hd (hi1.2.2.2.2 x hx1) (hi2.2.2.2.2 x hx2)

/-- Witness for `c4_no_duplication_amended` at the take-first oracle and the
map with disjoint duplicate-free pools {0,1} and {2,3,4}. -/
theorem c4_no_duplication_amended_witness :
    (planFiles (allocPlan pickTake 255 mapScarce)).Nodup :=
  c4_no_duplication_amended Nat pickTake 255 mapScarce pickTake_sub
    (by decide) (by decide) (by decide)

/-- C4 (counterexample).  When two categories' candidate pools share a file
(which `collect_wav_files` does nothing to prevent across categories), the
shared file is chosen by both and appears twice in the plan of one pack. -/
theorem c4_no_duplication_counterexample :
    planFiles (createPackPlan pickTake mapShared) = [7, 7] ∧
    ¬(planFiles (createPackPlan pickTake mapShared)).Nodup := by
  exact ⟨by decide, by decide⟩


/-! ## Exact budget use: supporting lemmas -/

theorem runRound_ne_mono {α : Type} [DecidableEq α] (pick : List α → Nat → List α)
    (q : Nat) : ∀ (fl : Nat) (slots : List (KindSlot α)),
    (runRound pick q fl true slots).2.1 = true
  | _, [] => rfl
  | fl, s :: rest => by
    simp only [runRound]
    rw [drawKind_ne_mono]
    exact runRound_ne_mono pick q _ rest

theorem runRound_ne_head {α : Type} [DecidableEq α] (pick : List α → Nat → List α)
    (q fl : Nat) (ne : Bool) (s : KindSlot α) (rest : List (KindSlot α))
    (hpool : s.pool ≠ []) (hq : 0 < q) :
    (runRound pick q fl ne (s :: rest)).2.1 = true := by
  simp only [runRound]
  rw [drawKind_ne_true pick q fl ne s hpool hq]
  exact runRound_ne_mono pick q _ rest

theorem allocLoop_fl_zero {α : Type} [DecidableEq α] (pick : List α → Nat → List α)
    (B n fuel i : Nat) (ne : Bool) (slots : List (KindSlot α)) :
    (allocLoop pick B n fuel i 0 ne slots).2.1 = 0 := by
  cases fuel with
  | zero => rfl
  | succ f =>
    simp only [allocLoop]
    rw [if_neg (fun h => absurd h.1 (lt_irrefl 0))]

theorem drawKind_full {α : Type} [DecidableEq α] {pick : List α → Nat → List α}
    (hlen : PickLen pick) (hsub : PickSub pick) (q fl : Nat) (ne : Bool)
    (s : KindSlot α) (hq : 0 < q) (hql : q ≤ s.pool.length) (hqfl : q ≤ fl)
    (hnd : s.pool.Nodup) :
    (drawKind pick q fl ne s).1 = fl - q ∧
    (drawKind pick q fl ne s).2.1 = true ∧
    (drawKind pick q fl ne s).2.2.pool.Nodup ∧
    (drawKind pick q fl ne s).2.2.pool.length = s.pool.length - q := by
  have hne' : ¬(s.pool.isEmpty = true) := by
    rw [List.isEmpty_iff]
    intro h
    rw [h] at hql
    simp at hql
    omega
  simp only [drawKind]
  rw [if_neg hne', Nat.min_eq_left hql, Nat.min_eq_left hqfl, if_pos hq, if_pos hq]
  refine ⟨rfl, rfl, hnd.filter _, ?_⟩
  rw [filter_not_mem_length hnd (hsub s.pool q hql), hlen s.pool q hql]

theorem runRound_drain {α : Type} [DecidableEq α] (pick : List α → Nat → List α)
    (q : Nat) (hq : 0 < q) :
    ∀ (fl : Nat) (ne : Bool) (slots : List (KindSlot α)),
    (∀ s ∈ slots, s.pool ≠ []) → fl ≤ slots.length →
    (runRound pick q fl ne slots).1 = 0
  | fl, ne, [], _, hfl => by
    simp only [List.length_nil, Nat.le_zero] at hfl
    simpa [runRound] using hfl
  | fl, ne, s :: rest, hpools, hfl => by
    simp only [runRound]
    have hpool : s.pool ≠ [] := hpools s (by simp)
    have hlenpos : 0 < s.pool.length := List.length_pos.mpr hpool
    have hsn : 0 < min q s.pool.length := Nat.lt_min.mpr ⟨hq, hlenpos⟩
    rcases Nat.eq_zero_or_pos fl with hfl0 | hflpos
    · -- the budget is already exhausted: it stays exhausted
      subst hfl0
      have h1 : (drawKind pick q 0 ne s).1 = 0 :=
        Nat.le_zero.mp (drawKind_fl_le pick q 0 ne s)
      have h2 := runRound_fl_le pick q (drawKind pick q 0 ne s).1
        (drawKind pick q 0 ne s).2.1 rest
      omega
    · -- the head draws at least one file
      have hdraw : 0 < min (min q s.pool.length) fl := Nat.lt_min.mpr ⟨hsn, hflpos⟩
      have hfl1 : (drawKind pick q fl ne s).1 ≤ fl - 1 := by
        simp only [drawKind]
        rw [if_neg (by rw [List.isEmpty_iff]; exact hpool), if_pos hsn, if_pos hdraw]
        simp only []
        omega
      have hrest := runRound_drain pick q hq (drawKind pick q fl ne s).1
        (drawKind pick q fl ne s).2.1 rest (fun u hu => hpools u (by simp [hu]))
        (by simp only [List.length_cons] at hfl; omega)
      exact hrest


theorem runRound_full {α : Type} [DecidableEq α] {pick : List α → Nat → List α}
    (hlen : PickLen pick) (hsub : PickSub pick) (q L : Nat) (hqL : q ≤ L) :
    ∀ (fl : Nat) (ne : Bool) (slots : List (KindSlot α)),
    (∀ s ∈ slots, s.pool.Nodup ∧ L ≤ s.pool.length) →
    slots.length * q ≤ fl →
    (runRound pick q fl ne slots).1 = fl - slots.length * q ∧
    (∀ s ∈ (runRound pick q fl ne slots).2.2,
      s.pool.Nodup ∧ L - q ≤ s.pool.length) := by
  rcases Nat.eq_zero_or_pos q with hq0 | hqpos
  · subst hq0
    intro fl ne slots hp _
    rw [runRound_zero]
    refine ⟨by simp, ?_⟩
    intro s hs
    exact ⟨(hp s hs).1, le_trans (Nat.sub_le _ _) (hp s hs).2⟩
  · intro fl ne slots
    induction slots generalizing fl ne with
    | nil =>
      intro _ _
      exact ⟨by simp [runRound], by intro s hs; simp [runRound] at hs⟩
    | cons s rest ih =>
      intro hp hmul
      obtain ⟨hnd, hL⟩ := hp s (by simp)
      have hql : q ≤ s.pool.length := le_trans hqL hL
      have hcons : (s :: rest).length * q = rest.length * q + q := by
        simp [Nat.succ_mul]
      rw [hcons] at hmul
      have hqfl : q ≤ fl := le_trans (Nat.le_add_left q _) hmul
      obtain ⟨h1, _, h3, h4⟩ := drawKind_full hlen hsub q fl ne s hqpos hql hqfl hnd
      simp only [runRound]
      have hmul2 : rest.length * q ≤ (drawKind pick q fl ne s).1 := by
        rw [h1]
        omega
      have hrest := ih (drawKind pick q fl ne s).1 (drawKind pick q fl ne s).2.1
        (fun u hu => hp u (List.mem_cons_of_mem _ hu)) hmul2
      constructor
      · rw [hrest.1, h1, hcons]
        omega
      · intro t ht
        rcases List.mem_cons.mp ht with ht | ht
        · rw [ht, h4]
          exact ⟨ht ▸ h3, Nat.sub_le_sub_right hL q⟩
        · exact hrest.2 t ht

theorem select_length_le {α : Type} (m : List (String × List α)) :
    (selectSubfolders m).length ≤ MAX_FOLDERS_PER_PACK := by
  simp only [selectSubfolders]
  split_ifs with h1 h2
  · simp only [List.length_append, List.length_take, MAX_FOLDERS_PER_PACK] at *
    omega
  · simp only [List.length_take, MAX_FOLDERS_PER_PACK] at *
    omega
  · simp only [MAX_FOLDERS_PER_PACK] at *
    omega

theorem select_ne_nil {α : Type} {m : List (String × List α)}
    (hav : availableSubfolders m ≠ []) : selectSubfolders m ≠ [] := by
  simp only [selectSubfolders]
  split_ifs with h1 h2
  · intro hnil
    rcases List.append_eq_nil.mp hnil with ⟨hp, hr⟩
    have hprio_nil :
        FILL_KEYS.filter (fun k => decide (k ∈ availableSubfolders m)) = [] := by
      rcases List.take_eq_nil_iff.mp hp with h | h
      · simp [MAX_FOLDERS_PER_PACK] at h
      · exact h
    rw [hp] at hr
    simp only [List.length_nil, Nat.sub_zero] at hr
    have hrem : (availableSubfolders m).filter
        (fun k => decide (k ∉ FILL_KEYS.filter
          (fun k => decide (k ∈ availableSubfolders m)))) =
        availableSubfolders m := by
      apply List.filter_eq_self.mpr
      intro a _
      rw [hprio_nil]
      simp
    rcases List.take_eq_nil_iff.mp hr with h | h
    · simp [MAX_FOLDERS_PER_PACK] at h
    · rw [hrem] at h
      exact hav h
  · intro hnil
    rw [hnil] at h2
    simp [MAX_FOLDERS_PER_PACK] at h2
  · exact hav

theorem runRound_ne_all {α : Type} [DecidableEq α] (pick : List α → Nat → List α)
    (q fl : Nat) (ne : Bool) (slots : List (KindSlot α)) (hq : 0 < q)
    (hnil : slots ≠ []) (hpools : ∀ s ∈ slots, s.pool ≠ []) :
    (runRound pick q fl ne slots).2.1 = true := by
  obtain ⟨s, rest, rfl⟩ := List.exists_cons_of_ne_nil hnil
  exact runRound_ne_head pick q fl ne s rest (hpools s (by simp)) hq

theorem allocLoop_step {α : Type} [DecidableEq α] (pick : List α → Nat → List α)
    (B n fuel i fl : Nat) (ne : Bool) (slots : List (KindSlot α))
    (hfl : 0 < fl) (hne : ne = true) (hn : n ≠ 0) :
    allocLoop pick B n (fuel + 1) i fl ne slots =
      (⟨roundQuota B n i, fl, nonemptyCount slots⟩ ::
          (allocLoop pick B n fuel (i + 1)
            (runRound pick (roundQuota B n i) fl false slots).1
            (runRound pick (roundQuota B n i) fl false slots).2.1
            (runRound pick (roundQuota B n i) fl false slots).2.2).1,
        (allocLoop pick B n fuel (i + 1)
            (runRound pick (roundQuota B n i) fl false slots).1
            (runRound pick (roundQuota B n i) fl false slots).2.1
            (runRound pick (roundQuota B n i) fl false slots).2.2).2.1,
        (allocLoop pick B n fuel (i + 1)
            (runRound pick (roundQuota B n i) fl false slots).1
            (runRound pick (roundQuota B n i) fl false slots).2.1
            (runRound pick (roundQuota B n i) fl false slots).2.2).2.2) := by
  simp only [allocLoop]
  rw [if_pos ⟨hfl, hne⟩, if_neg hn]

theorem allocLoop_full_use {α : Type} [DecidableEq α] {pick : List α → Nat → List α}
    (hlen : PickLen pick) (hsub : PickSub pick) (n : Nat)
    (slots : List (KindSlot α)) (hn1 : 1 ≤ n) (hn20 : n ≤ 20)
    (hslen : slots.length = n)
    (hpools : ∀ s ∈ slots, s.pool.Nodup ∧ 255 ≤ s.pool.length) :
    ∀ (fuel : Nat), 2 ≤ fuel →
    (allocLoop pick 255 n fuel 1 255 true slots).2.1 = 0 := by
  intro fuel hfuel
  obtain ⟨f, rfl⟩ : ∃ f, fuel = f + 2 := ⟨fuel - 2, by omega⟩
  have hq1 : roundQuota 255 n 1 = 255 / n := by
    rw [roundQuota, if_pos Nat.one_pos, Nat.div_one]
  have h12 : 12 ≤ 255 / n := by
    calc (12 : Nat) = 255 / 20 := by norm_num
    _ ≤ 255 / n := Nat.div_le_div_left hn20 (by omega)
  have hq1le : 255 / n ≤ 255 := Nat.div_le_self _ _
  have hmul : slots.length * (255 / n) ≤ 255 := by
    rw [hslen, Nat.mul_comm]
    exact Nat.div_mul_le_self 255 n
  obtain ⟨hfl1, hpools1⟩ := runRound_full hlen hsub (255 / n) 255 hq1le 255
    false slots hpools hmul
  have hfl1eq : (runRound pick (255 / n) 255 false slots).1 = 255 % n := by
    rw [hfl1, hslen]
    exact Nat.sub_eq_of_eq_add (Nat.mod_add_div 255 n).symm
  have hne1 : (runRound pick (255 / n) 255 false slots).2.1 = true := by
    apply runRound_ne_all pick _ _ _ _ (by omega)
    · intro hnil
      rw [hnil] at hslen
      simp at hslen
      omega
    · intro s hs hnil
      have := (hpools s hs).2
      rw [hnil] at this
      simp at this
  rw [show f + 2 = (f + 1) + 1 from rfl,
    allocLoop_step pick 255 n (f + 1) 1 255 true slots (by norm_num) rfl
      (by omega)]
  dsimp only
  rw [hq1, hfl1eq, hne1]
  by_cases hmod : 255 % n = 0
  · rw [hmod]
    exact allocLoop_fl_zero pick 255 n (f + 1) 2 true _
  · have hn2 : 2 ≤ n := by
      rcases Nat.lt_or_ge n 2 with h | h
      · exfalso
        have hn1' : n = 1 := by omega
        rw [hn1'] at hmod
        simp at hmod
      · exact h
    have hq2pos : 0 < roundQuota 255 n 2 := by
      rw [roundQuota, if_pos (by norm_num)]
      have h6 : 12 / 2 ≤ 255 / n / 2 := Nat.div_le_div_right h12
      omega
    have h127 : 255 / n ≤ 127 := by
      calc 255 / n ≤ 255 / 2 := Nat.div_le_div_left hn2 (by norm_num)
      _ = 127 := by norm_num
    have hpool1ne : ∀ s ∈ (runRound pick (255 / n) 255 false slots).2.2,
        s.pool ≠ [] := by
      intro s hs hnil
      have := (hpools1 s hs).2
      rw [hnil] at this
      simp at this
      omega
    have hfl1len : 255 % n ≤
        (runRound pick (255 / n) 255 false slots).2.2.length := by
      rw [runRound_len, hslen]
      exact le_of_lt (Nat.mod_lt _ (by omega))
    rw [allocLoop_step pick 255 n f 2 (255 % n) true _
      (Nat.pos_of_ne_zero hmod) rfl (by omega)]
    dsimp only
    rw [runRound_drain pick (roundQuota 255 n 2) hq2pos (255 % n) false
      (runRound pick (255 / n) 255 false slots).2.2 hpool1ne hfl1len]
    exact allocLoop_fl_zero pick 255 n f 3 _ _

/-! ## Claim C2: exact use of the budget -/

/-- C2 (amended).  When every category's candidate pool is duplicate-free
with at least `B = 255` files and at least one category exists, the final
plan totals exactly 255.  (Total supply at least `B` alone is not enough:
the shrinking round quota can reach zero with budget left unspent, see the
counterexample.) -/
theorem c2_convergence_amended :
    ∀ (α : Type) [DecidableEq α] (pick : List α → Nat → List α)
      (m : List (String × List α)),
    PickLen pick → PickSub pick →
    (∀ kv ∈ m, kv.2.Nodup) →
    (∀ kv ∈ m, 255 ≤ kv.2.length) →
    m ≠ [] →
    planTotal (createPackPlan pick m) = MAX_FILES_PER_PACK := by
  intro α _ pick m hlen hsub hnd hbig hne
  have hav : availableSubfolders m ≠ [] := by
    obtain ⟨kv, rest, rfl⟩ := List.exists_cons_of_ne_nil hne
    have hmem : kv.1 ∈ availableSubfolders (kv :: rest) := by
      simp only [availableSubfolders]
      apply List.mem_map.mpr
      refine ⟨kv, ?_, rfl⟩
      apply List.mem_filter.mpr
      refine ⟨by simp, ?_⟩
      have := hbig kv (by simp)
      simp only [decide_eq_true_eq]
      omega
    exact fun h => by rw [h] at hmem; cases hmem
  have hkne : selectSubfolders m ≠ [] := select_ne_nil hav
  have hn1 : 1 ≤ (selectSubfolders m).length := List.length_pos.mpr hkne
  have hn20 : (selectSubfolders m).length ≤ 20 := select_length_le m
  have hslen : (initSlots m (selectSubfolders m)).length =
      (selectSubfolders m).length := by
    simp [initSlots]
  have hpools : ∀ s ∈ initSlots m (selectSubfolders m),
      s.pool.Nodup ∧ 255 ≤ s.pool.length := by
    intro s hs
    simp only [initSlots, List.mem_map] at hs
    obtain ⟨k, hk, hks⟩ := hs
    have hkav := select_subset_available m k hk
    have hkkeys := available_subset_keys m k hkav
    obtain ⟨kv, hkv, _, hlook⟩ := lookupD_entry hkkeys
    rw [← hks]
    dsimp only
    rw [hlook]
    exact ⟨hnd kv hkv, hbig kv hkv⟩
  have hfl := allocLoop_full_use hlen hsub (selectSubfolders m).length
    (initSlots m (selectSubfolders m)) hn1 hn20 hslen hpools (255 + 2)
    (by omega)
  have htot := allocate_total_le hlen MAX_FILES_PER_PACK m
  have hzero : (allocate pick MAX_FILES_PER_PACK m).2.1 = 0 := by
    simpa only [allocate, MAX_FILES_PER_PACK] using hfl
  simp only [createPackPlan]
  omega

set_option maxRecDepth 1000000 in
/-- Witness for `c2_convergence_amended` at the take-first oracle and a
single category with a 255-file pool. -/
theorem c2_convergence_amended_witness :
    planTotal (createPackPlan pickTake mapFull) = MAX_FILES_PER_PACK :=
  c2_convergence_amended Nat pickTake mapFull pickTake_len pickTake_sub
    (by decide) (by decide) (by decide)

set_option maxRecDepth 1000000 in
/-- C2 (counterexample).  Twenty categories, nineteen singleton pools and
one 236-file pool: the total candidate supply is exactly 255 (at least the
budget), yet the plan totals 54 — the shrinking quota reaches zero long
before the budget is used. -/
theorem c2_convergence_counterexample :
    sumPool (initSlots mapSupply (selectSubfolders mapSupply)) = 255 ∧
    planTotal (createPackPlan pickTake mapSupply) = 54 ∧ (54 : Nat) ≠ 255 := by
  exact ⟨by decide, by decide, by decide⟩


/-! ## Claim C8: directory include/exclude filters -/

theorem isSubstr_correct (nd hay : List Char) :
    isSubstr nd hay = true ↔ nd <:+: hay := by
  simp only [isSubstr, List.any_eq_true, List.mem_tails]
  constructor
  · rintro ⟨t, hts, hpre⟩
    exact List.infix_iff_prefix_suffix.mpr
      ⟨t, List.isPrefixOf_iff_prefix.mp hpre, hts⟩
  · intro h
    obtain ⟨t, hpre, hts⟩ := List.infix_iff_prefix_suffix.mp h
    exact ⟨t, hts, List.isPrefixOf_iff_prefix.mpr hpre⟩

theorem isSubstr_append (nd hay ext : List Char)
    (h : isSubstr nd hay = true) : isSubstr nd (hay ++ ext) = true := by
  rw [isSubstr_correct] at *
  exact h.trans (List.prefix_append hay ext).isInfix

mutual

theorem walkTree_path_prefix : ∀ (pre : List Char) (t : DirTree)
    (e : List Char × List WavFile), e ∈ walkTree pre t →
    ∃ suf, e.1 = (pre ++ t.dname) ++ suf
  | pre, .node n fs subs, e, he => by
    simp only [walkTree, List.mem_cons] at he
    rcases he with he | he
    · exact ⟨[], by rw [he]; simp [DirTree.dname]⟩
    · obtain ⟨suf, hsuf⟩ := walkForest_path_prefix (pre ++ n ++ [sepChar]) subs e he
      exact ⟨sepChar :: suf, by rw [hsuf]; simp [DirTree.dname]⟩

theorem walkForest_path_prefix : ∀ (pre : List Char) (ts : List DirTree)
    (e : List Char × List WavFile), e ∈ walkForest pre ts →
    ∃ suf, e.1 = pre ++ suf
  | pre, [], e, he => by simp [walkForest] at he
  | pre, t :: rest, e, he => by
    simp only [walkForest, List.mem_append] at he
    rcases he with he | he
    · obtain ⟨suf, hsuf⟩ := walkTree_path_prefix pre t e he
      exact ⟨t.dname ++ suf, by rw [hsuf]; simp⟩
    · exact walkForest_path_prefix pre rest e he

end

/-- C8 (amended).  Two facts replace the claimed subtree pruning.
First, for BOTH filters the skipping is per directory: a walk entry whose
own path fails the filters contributes none of its own files to the pool
(`os.walk` still descends, so deeper directories are judged on their own
paths — see the counterexample for the include half).  Second, for the
exclude filter the claimed subtree behaviour does hold: a substring of a
directory's path is a substring of every descendant's path, so once a
directory matches an exclude substring its entire subtree contributes
nothing. -/
theorem c8_dir_filters_amended :
    ∀ (pattern : Option (List Char → Bool))
      (includeDirs excludeDirs : List (List Char)),
    (∀ entry : List Char × List WavFile,
      dirPasses includeDirs excludeDirs entry.1 = false →
      dirContribution pattern includeDirs excludeDirs entry = []) ∧
    (∀ excl ∈ excludeDirs, ∀ (pre : List Char) (t : DirTree),
      isSubstr (lowerStr excl) (lowerStr (pre ++ t.dname)) = true →
      ∀ e ∈ walkTree pre t,
      dirContribution pattern includeDirs excludeDirs e = []) := by
  intro pattern includeDirs excludeDirs
  constructor
  · intro entry h
    simp [dirContribution, h]
  · intro excl hexcl pre t hsub e he
    obtain ⟨suf, hsuf⟩ := walkTree_path_prefix pre t e he
    have hsub' : isSubstr (lowerStr excl) (lowerStr e.1) = true := by
      have hdist : lowerStr ((pre ++ t.dname) ++ suf) =
          lowerStr (pre ++ t.dname) ++ lowerStr suf := by
        simp [lowerStr]
      rw [hsuf, hdist]
      exact isSubstr_append _ _ _ hsub
    have hany : excludeDirs.any
        (fun ex => isSubstr (lowerStr ex) (lowerStr e.1)) = true :=
      List.any_eq_true.mpr ⟨excl, hexcl, hsub'⟩
    have hnonempty : excludeDirs.isEmpty = false := by
      rcases h : excludeDirs.isEmpty with _ | _
      · rfl
      · exact absurd (List.isEmpty_iff.mp h) (List.ne_nil_of_mem hexcl)
    have hfail : dirPasses includeDirs excludeDirs e.1 = false := by
      simp [dirPasses, hany, hnonempty]
    simp [dirContribution, hfail]

/-- Witness for `c8_dir_filters_amended`: the per-directory part at a
directory whose path lacks the include substring. -/
theorem c8_dir_filters_amended_witness :
    dirContribution none ["kick".toList] []
      ("Samples".toList, [⟨"a.wav".toList, 10⟩]) = [] :=
  (c8_dir_filters_amended none ["kick".toList] []).1
    ("Samples".toList, [⟨"a.wav".toList, 10⟩]) (by decide)

/-- C8 (counterexample).  With `include_dirs = ["kick"]`, the directory
`Samples` fails the include filter, yet the file in its subdirectory
`Samples/Kicks` — whose own path does contain the substring — still enters
the pool: `continue` in `os.walk` does not prune the subtree. -/
theorem c8_include_counterexample :
    dirPasses ["kick".toList] [] ("Samples".toList) = false ∧
    ("Samples/Kicks/a.wav".toList) ∈
      collect_wav_files [treeInclude] none ["kick".toList] [] := by
  exact ⟨by decide, by decide⟩

/-! ## Claim C7: failed normalization does not delete the destination -/

/-- C7 (code evaluation).  When the copy succeeds and the audio library
cannot decode the copied file, `convert_audio` swallows the error
internally, so the rollback branch of `create_sample_pack` never runs and
the destination file remains on disk — contradicting the claim that it is
deleted.  Processing does continue: every chosen file is processed. -/
theorem c7_failed_normalization_keeps_destination :
    convert_audio .couldntDecode = .decodeErrorLogged ∧
    (materializeFile false .couldntDecode).destExists = true ∧
    (materializeFile false .couldntDecode).rollbackRan = false ∧
    ∀ files : List (Bool × AudioLoadResult),
      (materializeFiles files).length = files.length := by
  refine ⟨rfl, rfl, rfl, ?_⟩
  intro files
  simp [materializeFiles]

/-! ## Claim C10: destination paths collide on shared basenames -/

/-- C10.  The materializer derives each destination path solely from the
pack directory, the category name and the source file's basename; two
distinct chosen files of one category sharing a basename therefore map to
the same destination, `shutil.copy2` overwrites, and the distinct
destination paths on disk number strictly fewer than the plan's files. -/
theorem c10_basename_collision :
    ∀ (packDir subfolder : List Char) (files : List (List Char))
      (f₁ f₂ : List Char), f₁ ∈ files → f₂ ∈ files → f₁ ≠ f₂ →
    baseName f₁ = baseName f₂ →
    destPath packDir subfolder f₁ = destPath packDir subfolder f₂ ∧
    (materializedPaths packDir subfolder files).length < files.length := by
  intro packDir subfolder files f₁ f₂ h1 h2 hne hbase
  have hdp : destPath packDir subfolder f₁ = destPath packDir subfolder f₂ := by
    simp [destPath, hbase]
  refine ⟨hdp, ?_⟩
  have hmaplen : (files.map (destPath packDir subfolder)).length = files.length :=
    List.length_map _ _
  have hsubl := List.dedup_sublist (files.map (destPath packDir subfolder))
  have hle := hsubl.length_le
  rcases Nat.lt_or_ge (materializedPaths packDir subfolder files).length
    files.length with h | h
  · exact h
  · exfalso
    have heq : (files.map (destPath packDir subfolder)).dedup.length =
        (files.map (destPath packDir subfolder)).length := by
      simp only [materializedPaths] at h
      omega
    have hdedup_eq := hsubl.eq_of_length heq
    have hnodup : (files.map (destPath packDir subfolder)).Nodup := by
      rw [← hdedup_eq]
      exact List.nodup_dedup _
    exact hne (List.inj_on_of_nodup_map hnodup h1 h2 hdp)

/-- Witness for `c10_basename_collision` at two files sharing the basename
`x.wav`. -/
theorem c10_basename_collision_witness :
    destPath "Packs/Foo".toList "Kick".toList "a/x.wav".toList =
      destPath "Packs/Foo".toList "Kick".toList "b/x.wav".toList ∧
    (materializedPaths "Packs/Foo".toList "Kick".toList
      ["a/x.wav".toList, "b/x.wav".toList]).length <
      (["a/x.wav".toList, "b/x.wav".toList] : List (List Char)).length :=
  c10_basename_collision "Packs/Foo".toList "Kick".toList
    ["a/x.wav".toList, "b/x.wav".toList] "a/x.wav".toList "b/x.wav".toList
    (by decide) (by decide) (by decide) (by decide)

end PlayPackFactory
